import Mathlib

/-!
Chef run list parser (`osquery/tables/applications/posix/chef_run_list.cpp`).

A shallow embedding of the run list parser and of the table built from it, and
proofs of their documented properties.

Conventions of the embedding:

* a `std::string` is the list of its `char` elements (`CppString`);
* `size_t` is 64 bits wide: lengths are natural numbers and the unsigned
  subtraction of the source is taken modulo `2 ^ 64` (`sizeSub`);
* a call that can throw or trip an assertion returns `Except Fault _`;
* an output parameter (`std::string& name`, `ChefRunList& runlist`) is passed
  in and returned;
* the warning log is the list of lines written, oldest first;
* the file system and the JSON reader are parameters of `getFirstBootJson`.
-/

namespace osquery.tables

/-! ## Strings -/

/-- A `std::string`, as the sequence of its `char` elements. -/
abbrev CppString := List Char

/-- The number of values of `size_t`. -/
def sizeModulus : Nat := 2 ^ 64

/-- The constant `std::string::npos`, which is `size_t(-1)`. -/
def npos : Nat := sizeModulus - 1

/-- Unsigned subtraction `a - b` on `size_t`: it wraps around modulo `2 ^ 64`. -/
def sizeSub (a b : Nat) : Nat :=
  (a % sizeModulus + sizeModulus - b % sizeModulus) % sizeModulus

/-- The ways a call can fail instead of returning. -/
inductive Fault where
  /-- `std::out_of_range`, thrown by `std::string::substr`. -/
  | outOfRange
  /-- A failed `RAPIDJSON_ASSERT`. -/
  | assertion
  deriving DecidableEq, Repr

/-- The call `s.find(pat)` of `std::string`: the position of the first
occurrence of `pat` in `s`, or `npos` when there is none. -/
def find : CppString → CppString → Nat
  | [], pat => if pat <+: [] then 0 else npos
  | c :: t, pat =>
    if pat <+: c :: t then 0
    else if find t pat = npos then npos else find t pat + 1

/-- The call `s.substr(pos, count)` of `std::string`: throws `std::out_of_range`
when `pos > s.size()`, and otherwise returns the characters
`[pos, pos + min(count, s.size() - pos))`. -/
def substr (s : CppString) (pos count : Nat) : Except Fault CppString :=
  if pos > s.length then .error .outOfRange
  else .ok ((s.drop pos).take (min count (s.length - pos)))

/-- Text that can identify a Chef role in a run list item: `"role["`. -/
def kChefRoleSearchTerm : CppString := ['r', 'o', 'l', 'e', '[']

/-- Text that can identify a Chef recipe in a run list item: `"recipe["`. -/
def kChefRecipeSearchTerm : CppString := ['r', 'e', 'c', 'i', 'p', 'e', '[']

/-- The function `isRole(item, name)`: the returned pair is the `bool` result
and the value of the output parameter `name` after the call. -/
def isRole (item name : CppString) : Except Fault (Bool × CppString) :=
  if find item kChefRoleSearchTerm ≠ 0 then
    .ok (false, name)
  else
    match substr item kChefRoleSearchTerm.length
        (sizeSub (sizeSub item.length kChefRoleSearchTerm.length) 1) with
    | .error e => .error e
    | .ok n => .ok (true, n)

/-- The function `isRecipe(item, name)`: the returned pair is the `bool` result
and the value of the output parameter `name` after the call. -/
def isRecipe (item name : CppString) : Except Fault (Bool × CppString) :=
  if find item kChefRecipeSearchTerm = 0 then
    match substr item kChefRecipeSearchTerm.length
        (sizeSub (sizeSub item.length kChefRecipeSearchTerm.length) 1) with
    | .error e => .error e
    | .ok n => .ok (true, n)
  else if find item kChefRoleSearchTerm ≠ 0 then
    .ok (true, item)
  else
    .ok (false, name)

/-! ## Whitespace trimming (`boost::algorithm::trim`) -/

/-- The classification `std::isspace` in the classic locale, which is what
`boost::algorithm::is_space()` tests: space, `\t`, `\n`, `\v`, `\f`, `\r`. -/
def isSpace (c : Char) : Bool :=
  c = ' ' || c = '\t' || c = '\n' || c = Char.ofNat 11 || c = Char.ofNat 12 || c = '\r'

/-- The call `boost::algorithm::trim_left_if`: erase the leading characters
that satisfy the predicate. -/
def trim_left_if (p : Char → Bool) (s : CppString) : CppString :=
  s.dropWhile p

/-- The call `boost::algorithm::trim_right_if`: erase the trailing characters
that satisfy the predicate. -/
def trim_right_if (p : Char → Bool) (s : CppString) : CppString :=
  (s.reverse.dropWhile p).reverse

/-- The call `boost::algorithm::trim`: `trim_right_if` and then `trim_left_if`,
both with `is_space()`. -/
def trim (s : CppString) : CppString :=
  trim_left_if isSpace (trim_right_if isSpace s)

/-- The constructor `std::string(const char*)`: the characters of the buffer
before its first NUL. -/
def fromCStr (buf : CppString) : CppString :=
  buf.takeWhile (fun c => c != Char.ofNat 0)

/-! ## JSON values (`rapidjson::Value`) -/

/-- A `rapidjson::Value`. An object keeps its members in document order,
duplicate names included; the payload of a number plays no part here. -/
inductive Value where
  | null
  | bool (b : Bool)
  | number (n : Int)
  | string (s : CppString)
  | array (elems : List Value)
  | object (members : List (CppString × Value))

namespace Value

/-- The test `IsObject()`. -/
def IsObject : Value → Bool
  | object _ => true
  | _ => false

/-- The test `IsArray()`. -/
def IsArray : Value → Bool
  | array _ => true
  | _ => false

/-- The test `IsString()`. -/
def IsString : Value → Bool
  | string _ => true
  | _ => false

/-- The call `FindMember(name)`: the value of the first member called `name`,
if any. It asserts `IsObject()`. -/
def FindMember (v : Value) (name : CppString) : Except Fault (Option Value) :=
  match v with
  | object members =>
    .ok ((members.find? (fun m => decide (m.1 = name))).map (fun m => m.2))
  | _ => .error .assertion

/-- The call `HasMember(name)`, which is `FindMember(name) != MemberEnd()`. -/
def HasMember (v : Value) (name : CppString) : Except Fault Bool :=
  match v.FindMember name with
  | .error e => .error e
  | .ok m => .ok m.isSome

/-- The subscript `v[name]`: the member found by `FindMember`; a missing member
trips `RAPIDJSON_ASSERT(false)`. -/
def getMember (v : Value) (name : CppString) : Except Fault Value :=
  match v.FindMember name with
  | .error e => .error e
  | .ok none => .error .assertion
  | .ok (some m) => .ok m

/-- The call `GetArray()`: the elements, in order. It asserts `IsArray()`. -/
def GetArray : Value → Except Fault (List Value)
  | array elems => .ok elems
  | _ => .error .assertion

/-- The call `GetString()`: the character buffer of the string. It asserts
`IsString()`. -/
def GetString : Value → Except Fault CppString
  | string s => .ok s
  | _ => .error .assertion

end Value

/-! ## The run list -/

/-- Structural representation of a Chef run list item. -/
structure ChefRunListItem where
  name : CppString
  seqNum : Nat
  deriving DecidableEq, Repr

/-- Structural representation of a Chef run list. -/
structure ChefRunList where
  roles : List ChefRunListItem
  recipes : List ChefRunListItem
  deriving DecidableEq, Repr

/-- A default-constructed `ChefRunList`. -/
def ChefRunList.empty : ChefRunList := ⟨[], []⟩

/-- A line written with `LOG(WARNING)`. -/
inductive LogLine where
  /-- "Did not get array type for 'run_list' field of 'first-boot.json'". -/
  | notArrayType
  /-- "Did not get string type for Chef run_list member number " followed by
  the index `i`. -/
  | notStringType (i : Nat)
  deriving DecidableEq, Repr

/-- The member name `"run_list"`. -/
def kRunList : CppString := ['r', 'u', 'n', '_', 'l', 'i', 's', 't']

/-- The body of the `for` loop of `parseRunList`, for the element `v = rl[i]`. -/
def parseElem (i : Nat) (v : Value) (runlist : ChefRunList) (log : List LogLine) :
    Except Fault (ChefRunList × List LogLine) :=
  if !v.IsString then
    .ok (runlist, log ++ [LogLine.notStringType i])
  else
    match v.GetString with
    | .error e => .error e
    | .ok buf =>
      let item := trim (fromCStr buf)
      let rlItem : ChefRunListItem := { name := [], seqNum := i }
      match isRole item rlItem.name with
      | .error e => .error e
      | .ok (true, name) =>
        .ok ({ runlist with roles := runlist.roles ++ [{ rlItem with name := name }] }, log)
      | .ok (false, name) =>
        match isRecipe item name with
        | .error e => .error e
        | .ok (true, name') =>
          .ok ({ runlist with
                 recipes := runlist.recipes ++ [{ rlItem with name := name' }] }, log)
        | .ok (false, _) => .ok (runlist, log)

/-- The `for` loop of `parseRunList` from iteration `i` on: `rest` holds the
elements `rl[i], rl[i + 1], ...` that are still to be visited. The counter
cannot wrap, since it stays below `rl.Size()`. -/
def parseLoop : List Value → Nat → ChefRunList → List LogLine →
    Except Fault (ChefRunList × List LogLine)
  | [], _, runlist, log => .ok (runlist, log)
  | v :: rest, i, runlist, log =>
    match parseElem i v runlist log with
    | .error e => .error e
    | .ok (runlist', log') => parseLoop rest (i + 1) runlist' log'

/-- The function `parseRunList(doc, runlist)`: the returned pair is the run
list after the call and the warnings logged by the call. -/
def parseRunList (doc : Value) (runlist : ChefRunList) :
    Except Fault (ChefRunList × List LogLine) :=
  match doc.HasMember kRunList with
  | .error e => .error e
  | .ok false => .ok (runlist, [])
  | .ok true =>
    match doc.getMember kRunList with
    | .error e => .error e
    | .ok member =>
      if !member.IsArray then
        .ok (runlist, [LogLine.notArrayType])
      else
        match doc.getMember kRunList with
        | .error e => .error e
        | .ok member' =>
          match member'.GetArray with
          | .error e => .error e
          | .ok rl => parseLoop rl 0 runlist []

/-- The document `{"run_list": a}` for an array `a`. -/
def runListDoc (a : List Value) : Value :=
  .object [(kRunList, .array a)]

/-- The array of the five-element test document: `["role[foo]", "recipe[bar]",
"Foo::Bar", "role[oof]", "Rab::Oof"]`. -/
def testArray5 : List Value :=
  [.string "role[foo]".toList, .string "recipe[bar]".toList, .string "Foo::Bar".toList,
    .string "role[oof]".toList, .string "Rab::Oof".toList]

/-! ## What one array element contributes

The closed form of the loop body: the item, if any, that the element `v` at
index `i` adds to each collection, and the warning it causes. -/

/-- The name `isRole` extracts from `item`. -/
def roleName (item : CppString) : CppString :=
  match isRole item [] with
  | .ok (_, name) => name
  | .error _ => []

/-- The name `isRecipe` extracts from `item`. -/
def recipeName (item : CppString) : CppString :=
  match isRecipe item [] with
  | .ok (_, name) => name
  | .error _ => []

/-- The role that the element `v` at index `i` adds, if any. -/
def roleOf (i : Nat) (v : Value) : Option ChefRunListItem :=
  match v with
  | .string buf =>
    if kChefRoleSearchTerm <+: trim (fromCStr buf) then
      some { name := roleName (trim (fromCStr buf)), seqNum := i }
    else none
  | _ => none

/-- The recipe that the element `v` at index `i` adds, if any. -/
def recipeOf (i : Nat) (v : Value) : Option ChefRunListItem :=
  match v with
  | .string buf =>
    if kChefRoleSearchTerm <+: trim (fromCStr buf) then none
    else some { name := recipeName (trim (fromCStr buf)), seqNum := i }
  | _ => none

/-- The warning that the element `v` at index `i` causes, if any. -/
def warningOf (i : Nat) (v : Value) : Option LogLine :=
  if v.IsString then none else some (LogLine.notStringType i)

/-- The zero-based indices of the elements of `a` that are strings, in
increasing order. -/
def stringIndices (a : List Value) : List Nat :=
  (List.range a.length).filter fun i =>
    match a[i]? with
    | some v => v.IsString
    | none => false

/-! ## Reference definitions of the result -/

/-- The roles as the specification words them: in index order, the items
`{name = the name isRole extracts from trim(a[i]), seqNum = i}` for the indices
`i` where `a[i]` is a string and `trim(a[i])` starts with `"role["`. -/
def specRoles (a : List Value) : List ChefRunListItem :=
  (List.range a.length).filterMap fun i =>
    match a[i]? with
    | some (Value.string s) =>
      if kChefRoleSearchTerm <+: trim s then
        some { name := roleName (trim s), seqNum := i }
      else none
    | _ => none

/-- The recipes as the specification words them: in index order, the items
`{name = the name isRecipe extracts from trim(a[i]), seqNum = i}` for the
indices `i` where `a[i]` is a string and `trim(a[i])` does not start with
`"role["`. -/
def specRecipes (a : List Value) : List ChefRunListItem :=
  (List.range a.length).filterMap fun i =>
    match a[i]? with
    | some (Value.string s) =>
      if kChefRoleSearchTerm <+: trim s then none
      else some { name := recipeName (trim s), seqNum := i }
    | _ => none

/-- The roles of `specRoles`, with every string element read as the C string
it holds: the characters before its first NUL. -/
def refRoles (a : List Value) : List ChefRunListItem :=
  (List.range a.length).filterMap fun i =>
    match a[i]? with
    | some (Value.string s) =>
      if kChefRoleSearchTerm <+: trim (fromCStr s) then
        some { name := roleName (trim (fromCStr s)), seqNum := i }
      else none
    | _ => none

/-- The recipes of `specRecipes`, with every string element read as the C
string it holds: the characters before its first NUL. -/
def refRecipes (a : List Value) : List ChefRunListItem :=
  (List.range a.length).filterMap fun i =>
    match a[i]? with
    | some (Value.string s) =>
      if kChefRoleSearchTerm <+: trim (fromCStr s) then none
      else some { name := recipeName (trim (fromCStr s)), seqNum := i }
    | _ => none

/-- The array `["role[a\u0000b]"]`, whose string holds a NUL character. -/
def nulArray : List Value :=
  [.string ['r', 'o', 'l', 'e', '[', 'a', Char.ofNat 0, 'b', ']']]

/-- The zero-based indices of the elements of `a` that are not strings, in
increasing order. -/
def nonStringIndices (a : List Value) : List Nat :=
  (List.range a.length).filter fun i =>
    match a[i]? with
    | some v => !v.IsString
    | none => false

/-! ## The first-boot file and the table -/

/-- The path `"/etc/chef/first-boot.json"`. -/
def kChefFirstBootJSON : CppString := "/etc/chef/first-boot.json".toList

/-- What the file system holds at a path: nothing (`pathExists` fails), a file
that cannot be read (`readFile` fails), or a file with its content. -/
inductive FileState where
  | missing
  | unreadable
  | readable (content : CppString)

/-- The function `getFirstBootJson(path)`. The file system `fs` and the JSON
reader `parse` (the call `d.Parse`, which answers `none` on malformed text and
then leaves the document as it was) are the external collaborators. The
default-constructed document is the null value; `content.c_str()` hands the
reader the content up to its first NUL. -/
def getFirstBootJson (fs : CppString → FileState) (parse : CppString → Option Value)
    (path : CppString) : Value :=
  match fs path with
  | .missing => Value.null
  | .unreadable => Value.null
  | .readable content =>
    match parse (fromCStr content) with
    | some d => d
    | none => Value.null

/-- Modelled from the spec: the macro `INTEGER` of `osquery/tables.h`, which is
not part of the sources at hand; it renders the number as its decimal text (the
column `seq_no` is an integer written as text). -/
def INTEGER (n : Nat) : CppString :=
  Nat.toDigits 10 n

/-- A `Row`: a map from column names to text, kept as the list of its
entries. -/
abbrev Row := List (CppString × CppString)

/-- The assignment `r[column] = text` on a row: it overwrites the entry of the
column or adds one. -/
def Row.set (r : Row) (column text : CppString) : Row :=
  if r.any (fun e => decide (e.1 = column)) then
    r.map (fun e => if e.1 = column then (column, text) else e)
  else r ++ [(column, text)]

/-- The text of a column in a row, if the row has the column. -/
def Row.get (r : Row) (column : CppString) : Option CppString :=
  (r.find? (fun e => decide (e.1 = column))).map (fun e => e.2)

/-- The table: `QueryData` is the vector of its rows. -/
abbrev QueryData := List Row

/-- The column name `"seq_no"`. -/
def kSeqNo : CppString := "seq_no".toList

/-- The column name `"role"`. -/
def kRole : CppString := "role".toList

/-- The body of either `for` loop of `genChefRunList`: the row built for one
item. -/
def rowOfItem (item : ChefRunListItem) : Row :=
  (Row.set [] kSeqNo (INTEGER item.seqNum)).set kRole item.name

/-- Either `for` loop of `genChefRunList`: one row is pushed back for each
item, in order. -/
def pushRows (results : QueryData) (items : List ChefRunListItem) : QueryData :=
  items.foldl (fun acc item => acc ++ [rowOfItem item]) results

/-- The two loops of `genChefRunList`, from the parsed run list `rl` to the
table: first over `rl.roles`, then over `rl.recipes`. -/
def rowsOfRunList (rl : ChefRunList) : QueryData :=
  pushRows (pushRows [] rl.roles) rl.recipes

/-- The function `genChefRunList(context)`; the query context is not used. The
returned pair is the table and the warnings logged. -/
def genChefRunList (fs : CppString → FileState) (parse : CppString → Option Value) :
    Except Fault (QueryData × List LogLine) :=
  match parseRunList (getFirstBootJson fs parse kChefFirstBootJSON) ChefRunList.empty with
  | .error e => .error e
  | .ok (rl, log) => .ok (rowsOfRunList rl, log)

/-- The array `["recipe[a]", "role[b]"]`. -/
def recipeThenRole : List Value :=
  [.string "recipe[a]".toList, .string "role[b]".toList]

/-! ## Lemmas on strings -/

theorem sizeModulus_eq : sizeModulus = 18446744073709551616 := by
  norm_num [sizeModulus]

theorem npos_ne_zero : npos ≠ 0 := by
  simp [npos, sizeModulus_eq]

/-- `find` returns position `0` exactly when the pattern is a prefix. -/
theorem find_eq_zero_iff (s pat : CppString) : find s pat = 0 ↔ pat <+: s := by
  cases s with
  | nil =>
    simp only [find]
    split_ifs with h <;> simp [h, npos_ne_zero]
  | cons c t =>
    simp only [find]
    split_ifs with h h2 <;> simp [h, npos_ne_zero]

/-- Removing a prefix of `pos` characters and the last character, computed the
way the source does it: `substr(pos, length - pos - 1)` with wrapping
subtraction. -/
theorem substr_strip (s : CppString) (pos : Nat) (hpos : pos ≤ s.length)
    (hlen : s.length < sizeModulus) :
    substr s pos (sizeSub (sizeSub s.length pos) 1) = .ok (s.drop pos).dropLast := by
  have hnot : ¬ pos > s.length := by omega
  have key : (s.drop pos).take (min (sizeSub (sizeSub s.length pos) 1) (s.length - pos))
      = (s.drop pos).dropLast := by
    rw [List.dropLast_eq_take, List.length_drop]
    rcases Nat.eq_or_lt_of_le hpos with h | h
    · have h0 : s.drop pos = [] := by
        apply List.drop_eq_nil_of_le; omega
      simp [h0]
    · have hc : sizeSub (sizeSub s.length pos) 1 = s.length - pos - 1 := by
        simp only [sizeSub, sizeModulus_eq] at hlen ⊢
        omega
      rw [hc, Nat.min_eq_left (by omega)]
  simp only [substr, hnot, if_false, key]

theorem role_prefix_length (s : CppString) (h : kChefRoleSearchTerm <+: s) :
    5 ≤ s.length := by
  have := h.length_le
  simpa [kChefRoleSearchTerm] using this

theorem recipe_prefix_length (s : CppString) (h : kChefRecipeSearchTerm <+: s) :
    7 ≤ s.length := by
  have := h.length_le
  simpa [kChefRecipeSearchTerm] using this

/-- No string starts with both search terms: they differ in their second
character. -/
theorem not_role_of_recipe (s : CppString) (h : kChefRecipeSearchTerm <+: s) :
    ¬ kChefRoleSearchTerm <+: s := by
  intro h'
  obtain ⟨t, rfl⟩ := h
  obtain ⟨u, hu⟩ := h'
  simp [kChefRecipeSearchTerm, kChefRoleSearchTerm] at hu

theorem isRole_of_role_start (s name : CppString) (hlen : s.length < sizeModulus)
    (hpre : kChefRoleSearchTerm <+: s) :
    isRole s name = .ok (true, (s.drop 5).dropLast) := by
  have hf : find s kChefRoleSearchTerm = 0 := (find_eq_zero_iff _ _).2 hpre
  have h5 : kChefRoleSearchTerm.length = 5 := rfl
  simp only [isRole, hf, ne_eq, not_true_eq_false, if_false, h5]
  rw [substr_strip s 5 (role_prefix_length s hpre) hlen]

theorem isRole_of_other_start (s name : CppString) (hpre : ¬ kChefRoleSearchTerm <+: s) :
    isRole s name = .ok (false, name) := by
  have hf : find s kChefRoleSearchTerm ≠ 0 := fun h => hpre ((find_eq_zero_iff _ _).1 h)
  simp [isRole, hf]

/-- Whatever the length, `isRole` returns, and its result says whether the item
starts with `"role["`. -/
theorem isRole_total (s name : CppString) :
    ∃ n, isRole s name = .ok (decide (kChefRoleSearchTerm <+: s), n) := by
  by_cases hpre : kChefRoleSearchTerm <+: s
  · have hf : find s kChefRoleSearchTerm = 0 := (find_eq_zero_iff _ _).2 hpre
    have h5 : ¬ kChefRoleSearchTerm.length > s.length := by
      have := hpre.length_le
      omega
    simp [isRole, hf, substr, h5, hpre]
  · exact ⟨name, by simp [isRole_of_other_start s name hpre, hpre]⟩

theorem isRecipe_of_recipe_start (s name : CppString) (hlen : s.length < sizeModulus)
    (hpre : kChefRecipeSearchTerm <+: s) :
    isRecipe s name = .ok (true, (s.drop 7).dropLast) := by
  have hf : find s kChefRecipeSearchTerm = 0 := (find_eq_zero_iff _ _).2 hpre
  have h7 : kChefRecipeSearchTerm.length = 7 := rfl
  simp only [isRecipe, hf, if_true, h7]
  rw [substr_strip s 7 (recipe_prefix_length s hpre) hlen]

theorem isRecipe_of_bare (s name : CppString) (hrec : ¬ kChefRecipeSearchTerm <+: s)
    (hrole : ¬ kChefRoleSearchTerm <+: s) :
    isRecipe s name = .ok (true, s) := by
  have hf : find s kChefRecipeSearchTerm ≠ 0 := fun h => hrec ((find_eq_zero_iff _ _).1 h)
  have hg : find s kChefRoleSearchTerm ≠ 0 := fun h => hrole ((find_eq_zero_iff _ _).1 h)
  simp [isRecipe, hf, hg]

theorem isRecipe_of_role_start (s name : CppString) (hpre : kChefRoleSearchTerm <+: s) :
    isRecipe s name = .ok (false, name) := by
  have hrec : ¬ kChefRecipeSearchTerm <+: s := fun h => not_role_of_recipe s h hpre
  have hf : find s kChefRecipeSearchTerm ≠ 0 := fun h => hrec ((find_eq_zero_iff _ _).1 h)
  have hg : find s kChefRoleSearchTerm = 0 := (find_eq_zero_iff _ _).2 hpre
  simp [isRecipe, hf, hg]

/-- Whatever the length, `isRecipe` returns, and its result is `false` exactly
when the item starts with `"role["`. -/
theorem isRecipe_total (s name : CppString) :
    ∃ n, isRecipe s name = .ok (!decide (kChefRoleSearchTerm <+: s), n) := by
  by_cases hrole : kChefRoleSearchTerm <+: s
  · exact ⟨name, by simp [isRecipe_of_role_start s name hrole, hrole]⟩
  · by_cases hrec : kChefRecipeSearchTerm <+: s
    · have hf : find s kChefRecipeSearchTerm = 0 := (find_eq_zero_iff _ _).2 hrec
      have h7 : ¬ kChefRecipeSearchTerm.length > s.length := by
        have := hrec.length_le
        omega
      simp [isRecipe, hf, substr, h7, hrole]
    · exact ⟨s, by simp [isRecipe_of_bare s name hrec hrole, hrole]⟩

/-! ## Classification of a run list item -/

/-- C1: for every string `s` that starts with `"role["`, `isRole(s)` returns
true and sets `name` to `s` with its first 5 characters and its last character
removed, whether or not that last character is `]`. (A `std::string` is
shorter than `2 ^ 64`.) -/
theorem isRole_strips_prefix_and_last (s name : CppString)
    (hlen : s.length < sizeModulus) (hpre : kChefRoleSearchTerm <+: s) :
    isRole s name = .ok (true, (s.drop 5).dropLast) :=
  isRole_of_role_start s name hlen hpre

/-- C1 at `"role[foobar]"` (name `"foobar"`) and at `"role[foo"` (name `"fo"`). -/
theorem isRole_strips_prefix_and_last_witness :
    (isRole "role[foobar]".toList [] = .ok (true, "foobar".toList)) ∧
    (isRole "role[foo".toList ['x'] = .ok (true, "fo".toList)) :=
  ⟨isRole_strips_prefix_and_last "role[foobar]".toList [] (by decide) (by decide),
   isRole_strips_prefix_and_last "role[foo".toList ['x'] (by decide) (by decide)⟩

/-- C2: for every string `s`, `isRole(s)` returns, and it returns true if and
only if `s` starts with `"role["`; so it returns false for every string that
starts with `"recipe["` and for every bare name (a string that starts with
neither search term). -/
theorem isRole_true_iff_role_start (s name : CppString) :
    (∃ n, isRole s name = .ok (decide (kChefRoleSearchTerm <+: s), n)) ∧
    (kChefRecipeSearchTerm <+: s → ∃ n, isRole s name = .ok (false, n)) ∧
    (¬ kChefRoleSearchTerm <+: s → ∃ n, isRole s name = .ok (false, n)) := by
  refine ⟨isRole_total s name, fun h => ?_, fun h => ?_⟩
  · exact ⟨name, isRole_of_other_start s name (not_role_of_recipe s h)⟩
  · exact ⟨name, isRole_of_other_start s name h⟩

/-- C2 at `"recipe[role[foobar]]"`, which contains `"role["` but does not start
with it. -/
theorem isRole_true_iff_role_start_witness :
    ∃ n, isRole "recipe[role[foobar]]".toList [] = .ok (false, n) :=
  (isRole_true_iff_role_start "recipe[role[foobar]]".toList []).2.1 (by decide)

/-- C3: for every string `s` that does not start with `"role["`, `isRecipe(s)`
returns true; the name is `s` with its first 7 characters and its last
character removed when `s` starts with `"recipe["`, and `s` itself otherwise. -/
theorem isRecipe_of_not_role (s name : CppString)
    (hlen : s.length < sizeModulus) (hnot : ¬ kChefRoleSearchTerm <+: s) :
    isRecipe s name =
      .ok (true, if kChefRecipeSearchTerm <+: s then (s.drop 7).dropLast else s) := by
  by_cases hrec : kChefRecipeSearchTerm <+: s
  · rw [if_pos hrec]
    exact isRecipe_of_recipe_start s name hlen hrec
  · rw [if_neg hrec]
    exact isRecipe_of_bare s name hrec hnot

/-- C3 at `"recipe[Bar::Foo]"` (stripped) and at `"role123"` (verbatim). -/
theorem isRecipe_of_not_role_witness :
    (isRecipe "recipe[Bar::Foo]".toList [] = .ok (true, "Bar::Foo".toList)) ∧
    (isRecipe "role123".toList [] = .ok (true, "role123".toList)) :=
  ⟨isRecipe_of_not_role "recipe[Bar::Foo]".toList [] (by decide) (by decide),
   isRecipe_of_not_role "role123".toList [] (by decide) (by decide)⟩

/-- C5: for every string `n`, `isRole("role[" ++ n ++ "]")` returns true with
name `n`, and `isRecipe("recipe[" ++ n ++ "]")` returns true with name `n`.
(The items are `std::string`s, so shorter than `2 ^ 64`.) -/
theorem bracket_roundtrip (n name : CppString) (hlen : n.length + 8 < sizeModulus) :
    isRole (kChefRoleSearchTerm ++ n ++ [']']) name = .ok (true, n) ∧
    isRecipe (kChefRecipeSearchTerm ++ n ++ [']']) name = .ok (true, n) := by
  constructor
  · rw [isRole_of_role_start _ name (by simp [kChefRoleSearchTerm]; omega)
      (by rw [List.append_assoc]; exact List.prefix_append _ _)]
    simp [kChefRoleSearchTerm]
  · rw [isRecipe_of_recipe_start _ name (by simp [kChefRecipeSearchTerm]; omega)
      (by rw [List.append_assoc]; exact List.prefix_append _ _)]
    simp [kChefRecipeSearchTerm]

/-- C5 at the empty name and at a name that itself contains brackets and a
search term. -/
theorem bracket_roundtrip_witness :
    (isRole "role[]".toList [] = .ok (true, []) ∧
      isRecipe "recipe[]".toList [] = .ok (true, [])) ∧
    (isRole "role[recipe[a]]".toList [] = .ok (true, "recipe[a]".toList) ∧
      isRecipe "recipe[recipe[a]]".toList [] = .ok (true, "recipe[a]".toList)) :=
  ⟨bracket_roundtrip [] [] (by decide), bracket_roundtrip "recipe[a]".toList [] (by decide)⟩

/-! ## The loop body and the loop -/

theorem parseElem_string (i : Nat) (buf : CppString) (runlist : ChefRunList)
    (log : List LogLine) :
    parseElem i (.string buf) runlist log =
      if kChefRoleSearchTerm <+: trim (fromCStr buf) then
        .ok (⟨runlist.roles ++ [⟨roleName (trim (fromCStr buf)), i⟩], runlist.recipes⟩, log)
      else
        .ok (⟨runlist.roles, runlist.recipes ++ [⟨recipeName (trim (fromCStr buf)), i⟩]⟩,
          log) := by
  obtain ⟨n, hn⟩ := isRole_total (trim (fromCStr buf)) []
  by_cases hpre : kChefRoleSearchTerm <+: trim (fromCStr buf)
  · simp only [hpre, decide_True] at hn
    simp [parseElem, Value.IsString, Value.GetString, hn, hpre, roleName]
  · have hn' := isRole_of_other_start (trim (fromCStr buf)) [] hpre
    obtain ⟨m, hm⟩ := isRecipe_total (trim (fromCStr buf)) []
    simp only [hpre, decide_False, Bool.not_false] at hm
    simp [parseElem, Value.IsString, Value.GetString, hn', hm, hpre, recipeName]

theorem parseElem_not_string (i : Nat) (v : Value) (runlist : ChefRunList)
    (log : List LogLine) (h : v.IsString = false) :
    parseElem i v runlist log = .ok (runlist, log ++ [LogLine.notStringType i]) := by
  simp [parseElem, h]

/-- The loop body in closed form. -/
theorem parseElem_eq (i : Nat) (v : Value) (runlist : ChefRunList) (log : List LogLine) :
    parseElem i v runlist log =
      .ok (⟨runlist.roles ++ (roleOf i v).toList, runlist.recipes ++ (recipeOf i v).toList⟩,
        log ++ (warningOf i v).toList) := by
  by_cases hs : v.IsString = true
  · cases v <;> simp [Value.IsString] at hs
    rename_i buf
    rw [parseElem_string]
    by_cases hpre : kChefRoleSearchTerm <+: trim (fromCStr buf) <;>
      simp [roleOf, recipeOf, warningOf, Value.IsString, hpre]
  · have hs' : v.IsString = false := by simpa using hs
    rw [parseElem_not_string i v runlist log hs']
    cases v <;> simp [Value.IsString] at hs' <;>
      simp [roleOf, recipeOf, warningOf, Value.IsString]

/-- The loop in closed form: it always completes, and appends to each
collection and to the log what the elements contribute, in order. -/
theorem parseLoop_eq (rest : List Value) (i : Nat) (runlist : ChefRunList)
    (log : List LogLine) :
    parseLoop rest i runlist log =
      .ok (⟨runlist.roles ++ (rest.enumFrom i).filterMap (fun p => roleOf p.1 p.2),
            runlist.recipes ++ (rest.enumFrom i).filterMap (fun p => recipeOf p.1 p.2)⟩,
        log ++ (rest.enumFrom i).filterMap (fun p => warningOf p.1 p.2)) := by
  induction rest generalizing i runlist log with
  | nil => simp [parseLoop]
  | cons v rest ih =>
    simp only [parseLoop, parseElem_eq, ih, List.enumFrom_cons, List.append_assoc]
    cases hr : roleOf i v <;> cases hc : recipeOf i v <;> cases hw : warningOf i v <;>
      simp [List.filterMap_cons, hr, hc, hw]

/-! ## From the loop to the index range -/

/-- Collecting over the elements paired with their indices is collecting over
the index range. -/
theorem filterMap_enumFrom_eq_range {β : Type} (f : Nat → Value → Option β)
    (a : List Value) (i : Nat) :
    (a.enumFrom i).filterMap (fun p => f p.1 p.2) =
      (List.range a.length).filterMap (fun j =>
        match a[j]? with
        | some v => f (i + j) v
        | none => none) := by
  induction a generalizing i with
  | nil => simp
  | cons v a ih =>
    rw [List.enumFrom_cons, List.length_cons, List.range_succ_eq_map, List.filterMap_cons,
      List.filterMap_cons, List.filterMap_map, ih (i + 1)]
    have hfun : (fun j => match a[j]? with
        | some w => f (i + 1 + j) w
        | none => none) =
        ((fun j => match (v :: a)[j]? with
        | some w => f (i + j) w
        | none => none) ∘ Nat.succ) := by
      funext j
      simp only [Function.comp, Nat.succ_eq_add_one, List.getElem?_cons_succ]
      have : i + 1 + j = i + (j + 1) := by omega
      rw [this]
    rw [hfun]
    simp

theorem seqNum_roleOf (i : Nat) (v : Value) (x : ChefRunListItem)
    (h : roleOf i v = some x) : x.seqNum = i := by
  cases v <;> simp [roleOf] at h
  obtain ⟨_, rfl⟩ := h
  rfl

theorem seqNum_recipeOf (i : Nat) (v : Value) (x : ChefRunListItem)
    (h : recipeOf i v = some x) : x.seqNum = i := by
  cases v <;> simp [recipeOf] at h
  obtain ⟨_, rfl⟩ := h
  rfl

/-- The sequence numbers of the collected items are the indices of the
elements that contribute one. -/
theorem map_seqNum_filterMap (f : Nat → Value → Option ChefRunListItem)
    (hf : ∀ i v x, f i v = some x → x.seqNum = i) (E : List (Nat × Value)) :
    (E.filterMap (fun p => f p.1 p.2)).map (fun x => x.seqNum) =
      (E.filter (fun p => (f p.1 p.2).isSome)).map Prod.fst := by
  induction E with
  | nil => simp
  | cons p E ih =>
    cases h : f p.1 p.2 with
    | none => simp [List.filterMap_cons, List.filter_cons, h, ih]
    | some x => simp [List.filterMap_cons, List.filter_cons, h, ih, hf p.1 p.2 x h]

/-- Roles and recipes together hold one sequence number for each string
element. -/
theorem seqNums_perm_strings (E : List (Nat × Value)) :
    ((E.filterMap (fun p => roleOf p.1 p.2) ++
        E.filterMap (fun p => recipeOf p.1 p.2)).map (fun x => x.seqNum)).Perm
      ((E.filter (fun p => p.2.IsString)).map Prod.fst) := by
  induction E with
  | nil => simp
  | cons p E ih =>
    obtain ⟨i, v⟩ := p
    simp only [List.map_append] at ih ⊢
    by_cases hs : v.IsString = true
    · cases v <;> simp [Value.IsString] at hs
      rename_i buf
      by_cases hpre : kChefRoleSearchTerm <+: trim (fromCStr buf)
      · simpa [List.filterMap_cons, List.filter_cons, roleOf, recipeOf, Value.IsString, hpre]
          using ih
      · simp only [List.filterMap_cons, List.filter_cons, roleOf, recipeOf, Value.IsString,
          hpre, if_false, if_true, List.map_cons]
        exact List.perm_middle.trans (ih.cons i)
    · have hs' : v.IsString = false := by simpa using hs
      cases v <;> simp [Value.IsString] at hs' <;>
        simpa [List.filterMap_cons, List.filter_cons, roleOf, recipeOf, Value.IsString]
          using ih

/-- The indices of the string elements, read off the elements paired with
their indices. -/
theorem map_fst_filter_enum (a : List Value) :
    ((a.enumFrom 0).filter (fun p => p.2.IsString)).map Prod.fst = stringIndices a := by
  have h1 : ((a.enumFrom 0).filter (fun p => p.2.IsString)).map Prod.fst =
      (a.enumFrom 0).filterMap (fun p => if p.2.IsString then some p.1 else none) := by
    induction a.enumFrom 0 with
    | nil => simp
    | cons p E ih =>
      by_cases hp : p.2.IsString = true <;>
        simp [List.filterMap_cons, List.filter_cons, hp, ih]
  rw [h1, filterMap_enumFrom_eq_range (fun i v => if v.IsString then some i else none) a 0,
    stringIndices, ← List.filterMap_eq_filter]
  congr 1
  funext j
  have aux : ∀ x : Option Value,
      (match x with
        | some v => if v.IsString = true then some (0 + j) else none
        | none => none) =
      Option.guard (fun _ : Nat =>
        (match x with
          | some v => v.IsString
          | none => false) = true) j := by
    intro x
    cases x with
    | none => simp [Option.guard]
    | some v => by_cases hv : v.IsString = true <;> simp [Option.guard, hv]
  exact aux a[j]?

theorem length_filter_enum (a : List Value) (i : Nat) :
    ((a.enumFrom i).filter (fun p => p.2.IsString)).length =
      a.countP (fun v => v.IsString) := by
  rw [← List.countP_eq_length_filter]
  conv_rhs => rw [← List.enumFrom_map_snd i a, List.countP_map]
  rfl

/-- The sequence numbers collected from consecutive elements increase. -/
theorem seqNums_increasing (f : Nat → Value → Option ChefRunListItem)
    (hf : ∀ i v x, f i v = some x → x.seqNum = i) (a : List Value) (i : Nat) :
    (((a.enumFrom i).filterMap (fun p => f p.1 p.2)).map (fun x => x.seqNum)).Pairwise
      (fun m n => m < n) := by
  rw [map_seqNum_filterMap f hf]
  have hsub : (((a.enumFrom i).filter (fun p => (f p.1 p.2).isSome)).map Prod.fst).Sublist
      ((a.enumFrom i).map Prod.fst) := (List.filter_sublist _).map _
  rw [List.enumFrom_map_fst] at hsub
  exact (List.pairwise_lt_range' i a.length).sublist hsub

/-! ## The member lookup -/

theorem parseRunList_of_array (doc : Value) (a : List Value) (runlist : ChefRunList)
    (h : doc.FindMember kRunList = .ok (some (.array a))) :
    parseRunList doc runlist = parseLoop a 0 runlist [] := by
  simp [parseRunList, Value.HasMember, Value.getMember, h, Value.IsArray, Value.GetArray]

theorem parseRunList_of_missing (doc : Value) (runlist : ChefRunList)
    (h : doc.FindMember kRunList = .ok none) :
    parseRunList doc runlist = .ok (runlist, []) := by
  simp [parseRunList, Value.HasMember, h]

theorem parseRunList_of_not_array (doc v : Value) (runlist : ChefRunList)
    (h : doc.FindMember kRunList = .ok (some v)) (hv : v.IsArray = false) :
    parseRunList doc runlist = .ok (runlist, [LogLine.notArrayType]) := by
  simp [parseRunList, Value.HasMember, Value.getMember, h, hv]

theorem findMember_of_no_member (members : List (CppString × Value))
    (h : ∀ m ∈ members, m.1 ≠ kRunList) :
    (Value.object members).FindMember kRunList = .ok none := by
  have : members.find? (fun m => decide (m.1 = kRunList)) = none := by
    rw [List.find?_eq_none]
    intro m hm
    simpa using h m hm
  simp [Value.FindMember, this]

/-- Every lookup in an object answers. -/
theorem findMember_object (members : List (CppString × Value)) :
    ∃ m, (Value.object members).FindMember kRunList = .ok m :=
  ⟨_, rfl⟩

/-- On an object, `parseRunList` completes. -/
theorem parseRunList_object_total (members : List (CppString × Value))
    (runlist : ChefRunList) :
    ∃ r log, parseRunList (.object members) runlist = .ok (r, log) := by
  obtain ⟨m, hm⟩ := findMember_object members
  cases m with
  | none => exact ⟨_, _, parseRunList_of_missing _ _ hm⟩
  | some v =>
    by_cases hv : v.IsArray = true
    · cases v <;> simp [Value.IsArray] at hv
      rename_i a
      exact ⟨_, _, (parseRunList_of_array _ a _ hm).trans (parseLoop_eq a 0 runlist [])⟩
    · exact ⟨_, _, parseRunList_of_not_array _ v _ hm (by simpa using hv)⟩

/-! ## Properties of `parseRunList` -/

/-- C4: for every string `s` exactly one of `isRole(s)` and `isRecipe(s)`
returns true, and `isRecipe(s)` returns false if and only if `s` starts with
`"role["`. So the loop body never takes the branch where both checks fail: for
a string element (with buffer `s`) at index `i` it appends exactly one item,
with sequence number `i`, to exactly one of the two collections. -/
theorem isRole_xor_isRecipe (s name : CppString) :
    (∃ b n n', isRole s name = .ok (b, n) ∧ isRecipe s name = .ok (!b, n') ∧
      (b = true ↔ kChefRoleSearchTerm <+: s)) ∧
    (∀ (i : Nat) (runlist : ChefRunList) (log : List LogLine),
      ∃ item, item.seqNum = i ∧
        (parseElem i (.string s) runlist log =
            .ok (⟨runlist.roles ++ [item], runlist.recipes⟩, log) ∨
          parseElem i (.string s) runlist log =
            .ok (⟨runlist.roles, runlist.recipes ++ [item]⟩, log))) := by
  constructor
  · obtain ⟨n, hn⟩ := isRole_total s name
    obtain ⟨n', hn'⟩ := isRecipe_total s name
    exact ⟨_, n, n', hn, hn', by simp⟩
  · intro i runlist log
    rw [parseElem_string]
    by_cases hpre : kChefRoleSearchTerm <+: trim (fromCStr s)
    · exact ⟨⟨roleName (trim (fromCStr s)), i⟩, rfl, Or.inl (by rw [if_pos hpre])⟩
    · exact ⟨⟨recipeName (trim (fromCStr s)), i⟩, rfl, Or.inr (by rw [if_neg hpre])⟩

/-- C4 on the strings of the negative test of `isRecipe`: `"role[recipe[foobar]]"`
is a role and not a recipe. -/
theorem isRole_xor_isRecipe_witness :
    ∃ b n n', isRole "role[recipe[foobar]]".toList [] = .ok (b, n) ∧
      isRecipe "role[recipe[foobar]]".toList [] = .ok (!b, n') ∧
      (b = true ↔ kChefRoleSearchTerm <+: "role[recipe[foobar]]".toList) :=
  (isRole_xor_isRecipe "role[recipe[foobar]]".toList []).1

/-- C6: for every JSON object document that has no `"run_list"` member, or
whose `"run_list"` member is not an array, `parseRunList` started on an empty
run list completes and yields empty roles and empty recipes, whatever other
members the document has. -/
theorem parseRunList_without_array (members : List (CppString × Value))
    (h : (∀ m ∈ members, m.1 ≠ kRunList) ∨
      ∃ v, (Value.object members).FindMember kRunList = .ok (some v) ∧ v.IsArray = false) :
    ∃ log, parseRunList (.object members) ChefRunList.empty =
      .ok (⟨[], []⟩, log) := by
  rcases h with h | ⟨v, hv, hnot⟩
  · exact ⟨[], parseRunList_of_missing _ _ (findMember_of_no_member members h)⟩
  · exact ⟨[LogLine.notArrayType], parseRunList_of_not_array _ v _ hv hnot⟩

/-- C6 on the two documents of the test: `{"not_run_list": ["role[foo]"]}` and
`{"run_list": {"foo": "bar"}}`. -/
theorem parseRunList_without_array_witness :
    (∃ log, parseRunList
        (.object [("not_run_list".toList, .array [.string "role[foo]".toList])])
        ChefRunList.empty = .ok (⟨[], []⟩, log)) ∧
    (∃ log, parseRunList
        (.object [("run_list".toList, .object [("foo".toList, .string "bar".toList)])])
        ChefRunList.empty = .ok (⟨[], []⟩, log)) :=
  ⟨parseRunList_without_array _ (Or.inl (by decide)),
   parseRunList_without_array _ (Or.inr ⟨_, rfl, rfl⟩)⟩

/-- C7: for every document whose `"run_list"` is an array `a`, `parseRunList`
started on an empty run list completes, and the sequence numbers of its items
(roles and recipes together) are the zero-based indices of the string elements
of `a`, each exactly once; so there are as many items as string elements, and
an array with no string element yields empty roles and recipes. -/
theorem seqNums_are_string_indices (doc : Value) (a : List Value)
    (h : doc.FindMember kRunList = .ok (some (.array a))) :
    ∃ r log, parseRunList doc ChefRunList.empty = .ok (r, log) ∧
      ((r.roles ++ r.recipes).map (fun x => x.seqNum)).Perm (stringIndices a) ∧
      ((r.roles ++ r.recipes).map (fun x => x.seqNum)).Nodup ∧
      r.roles.length + r.recipes.length = a.countP (fun v => v.IsString) ∧
      ((∀ v ∈ a, v.IsString = false) → r = ⟨[], []⟩) := by
  have hperm := seqNums_perm_strings (a.enumFrom 0)
  refine ⟨_, _, (parseRunList_of_array doc a _ h).trans (parseLoop_eq a 0 _ []), ?_, ?_, ?_, ?_⟩
  · simpa [ChefRunList.empty, map_fst_filter_enum] using hperm
  · have hnd : (stringIndices a).Nodup :=
      (List.nodup_range a.length).filter _
    rw [map_fst_filter_enum] at hperm
    simpa [ChefRunList.empty] using hperm.nodup_iff.2 hnd
  · have hlen := hperm.length_eq
    rw [List.length_map, List.length_map, length_filter_enum, List.length_append] at hlen
    simpa [ChefRunList.empty] using hlen
  · intro hall
    have hlen := hperm.length_eq
    rw [List.length_map, List.length_map, length_filter_enum, List.length_append] at hlen
    have h0 : a.countP (fun v => v.IsString) = 0 := by
      rw [List.countP_eq_zero]
      intro v hv
      simp [hall v hv]
    rw [h0] at hlen
    have hr : (a.enumFrom 0).filterMap (fun p => roleOf p.1 p.2) = [] :=
      List.eq_nil_of_length_eq_zero (by omega)
    have hc : (a.enumFrom 0).filterMap (fun p => recipeOf p.1 p.2) = [] :=
      List.eq_nil_of_length_eq_zero (by omega)
    simp [ChefRunList.empty, hr, hc]

/-- C7 on `{"run_list": [1, 2, 3, 4, 5]}`, which has no string element, and on
`{"run_list": [1, "role[a]", null, "b"]}`, whose strings sit at indices 1 and 3. -/
theorem seqNums_are_string_indices_witness :
    (∃ log, parseRunList (.object [("run_list".toList,
        .array [.number 1, .number 2, .number 3, .number 4, .number 5])])
        ChefRunList.empty = .ok (⟨[], []⟩, log)) ∧
    (∃ r log, parseRunList (.object [("run_list".toList,
        .array [.number 1, .string "role[a]".toList, .null, .string "b".toList])])
        ChefRunList.empty = .ok (r, log) ∧
      ((r.roles ++ r.recipes).map (fun x => x.seqNum)).Perm [1, 3]) := by
  constructor
  · obtain ⟨r, log, hp, -, -, -, hempty⟩ := seqNums_are_string_indices
      (.object [("run_list".toList,
        .array [.number 1, .number 2, .number 3, .number 4, .number 5])]) _ rfl
    exact ⟨log, by rw [hp, hempty (by decide)]⟩
  · obtain ⟨r, log, hp, hperm, -⟩ := seqNums_are_string_indices
      (.object [("run_list".toList,
        .array [.number 1, .string "role[a]".toList, .null, .string "b".toList])]) _ rfl
    exact ⟨r, log, hp, hperm⟩

/-- C8: `parseRunList` started on an empty run list completes on every object
document, and in the result it gives for any document the sequence numbers in
roles are strictly increasing and the sequence numbers in recipes are strictly
increasing. -/
theorem seqNums_strictly_increasing (doc : Value) :
    (doc.IsObject = true → ∃ r log, parseRunList doc ChefRunList.empty = .ok (r, log)) ∧
    (∀ r log, parseRunList doc ChefRunList.empty = .ok (r, log) →
      (r.roles.map (fun x => x.seqNum)).Pairwise (fun m n => m < n) ∧
      (r.recipes.map (fun x => x.seqNum)).Pairwise (fun m n => m < n)) := by
  constructor
  · intro hobj
    cases doc <;> simp [Value.IsObject] at hobj
    exact parseRunList_object_total _ _
  · intro r log hr
    cases doc with
    | object members =>
      obtain ⟨m, hm⟩ := findMember_object members
      cases m with
      | none =>
        rw [parseRunList_of_missing _ _ hm] at hr
        cases hr
        simp [ChefRunList.empty]
      | some v =>
        by_cases hv : v.IsArray = true
        · cases v <;> simp [Value.IsArray] at hv
          rename_i a
          rw [parseRunList_of_array _ a _ hm, parseLoop_eq] at hr
          cases hr
          exact ⟨by simpa [ChefRunList.empty] using seqNums_increasing roleOf seqNum_roleOf a 0,
            by simpa [ChefRunList.empty] using seqNums_increasing recipeOf seqNum_recipeOf a 0⟩
        · rw [parseRunList_of_not_array _ v _ hm (by simpa using hv)] at hr
          cases hr
          simp [ChefRunList.empty]
    | _ => simp [parseRunList, Value.HasMember, Value.FindMember] at hr

/-- C8 on the five-element document of the test: roles carry the sequence
numbers 0, 3 and recipes 1, 2, 4. -/
theorem seqNums_strictly_increasing_witness :
    ∃ r log, parseRunList (runListDoc testArray5) ChefRunList.empty = .ok (r, log) ∧
      r.roles.map (fun x => x.seqNum) = [0, 3] ∧
      r.recipes.map (fun x => x.seqNum) = [1, 2, 4] ∧
      (r.roles.map (fun x => x.seqNum)).Pairwise (fun m n => m < n) ∧
      (r.recipes.map (fun x => x.seqNum)).Pairwise (fun m n => m < n) :=
  ⟨⟨[⟨"foo".toList, 0⟩, ⟨"oof".toList, 3⟩],
      [⟨"bar".toList, 1⟩, ⟨"Foo::Bar".toList, 2⟩, ⟨"Rab::Oof".toList, 4⟩]⟩, [], rfl, rfl, rfl,
    (seqNums_strictly_increasing (runListDoc testArray5)).2 _ [] rfl⟩

/-! ## The reference definition -/

theorem fromCStr_eq_self (s : CppString) (h : Char.ofNat 0 ∉ s) : fromCStr s = s := by
  rw [fromCStr, List.takeWhile_eq_self_iff]
  intro x hx
  have : x ≠ Char.ofNat 0 := fun hx0 => h (hx0 ▸ hx)
  simpa using this

theorem refRoles_eq_loop (a : List Value) :
    refRoles a = (a.enumFrom 0).filterMap (fun p => roleOf p.1 p.2) := by
  rw [filterMap_enumFrom_eq_range roleOf a 0, refRoles]
  congr 1
  funext j
  have aux : ∀ x : Option Value,
      (match x with
        | some (Value.string s) =>
          if kChefRoleSearchTerm <+: trim (fromCStr s) then
            some ({ name := roleName (trim (fromCStr s)), seqNum := j } : ChefRunListItem)
          else none
        | _ => none) =
      (match x with
        | some v => roleOf (0 + j) v
        | none => none) := by
    intro x
    cases x with
    | none => rfl
    | some v => cases v <;> simp [roleOf]
  exact aux a[j]?

theorem refRecipes_eq_loop (a : List Value) :
    refRecipes a = (a.enumFrom 0).filterMap (fun p => recipeOf p.1 p.2) := by
  rw [filterMap_enumFrom_eq_range recipeOf a 0, refRecipes]
  congr 1
  funext j
  have aux : ∀ x : Option Value,
      (match x with
        | some (Value.string s) =>
          if kChefRoleSearchTerm <+: trim (fromCStr s) then none
          else some ({ name := recipeName (trim (fromCStr s)), seqNum := j } : ChefRunListItem)
        | _ => none) =
      (match x with
        | some v => recipeOf (0 + j) v
        | none => none) := by
    intro x
    cases x with
    | none => rfl
    | some v => cases v <;> simp [recipeOf]
  exact aux a[j]?

theorem refRoles_eq_spec (a : List Value)
    (h : ∀ s, Value.string s ∈ a → Char.ofNat 0 ∉ s) : refRoles a = specRoles a := by
  rw [refRoles, specRoles]
  apply List.filterMap_congr
  intro i _
  have aux : ∀ x : Option Value, (∀ v, x = some v → v ∈ a) →
      (match x with
        | some (Value.string s) =>
          if kChefRoleSearchTerm <+: trim (fromCStr s) then
            some ({ name := roleName (trim (fromCStr s)), seqNum := i } : ChefRunListItem)
          else none
        | _ => none) =
      (match x with
        | some (Value.string s) =>
          if kChefRoleSearchTerm <+: trim s then
            some ({ name := roleName (trim s), seqNum := i } : ChefRunListItem)
          else none
        | _ => none) := by
    intro x hx
    cases x with
    | none => rfl
    | some v =>
      cases v <;> try rfl
      rename_i s
      simp only [fromCStr_eq_self s (h s (hx _ rfl))]
  exact aux a[i]? (fun v hv => List.getElem?_mem hv)

theorem refRecipes_eq_spec (a : List Value)
    (h : ∀ s, Value.string s ∈ a → Char.ofNat 0 ∉ s) : refRecipes a = specRecipes a := by
  rw [refRecipes, specRecipes]
  apply List.filterMap_congr
  intro i _
  have aux : ∀ x : Option Value, (∀ v, x = some v → v ∈ a) →
      (match x with
        | some (Value.string s) =>
          if kChefRoleSearchTerm <+: trim (fromCStr s) then none
          else some ({ name := recipeName (trim (fromCStr s)), seqNum := i } : ChefRunListItem)
        | _ => none) =
      (match x with
        | some (Value.string s) =>
          if kChefRoleSearchTerm <+: trim s then none
          else some ({ name := recipeName (trim s), seqNum := i } : ChefRunListItem)
        | _ => none) := by
    intro x hx
    cases x with
    | none => rfl
    | some v =>
      cases v <;> try rfl
      rename_i s
      simp only [fromCStr_eq_self s (h s (hx _ rfl))]
  exact aux a[i]? (fun v hv => List.getElem?_mem hv)

/-- On a document whose `"run_list"` is an array, `parseRunList` completes and
appends the reference lists to the two collections. -/
theorem parseRunList_array_closed (doc : Value) (a : List Value) (runlist : ChefRunList)
    (h : doc.FindMember kRunList = .ok (some (.array a))) :
    parseRunList doc runlist =
      .ok (⟨runlist.roles ++ refRoles a, runlist.recipes ++ refRecipes a⟩,
        (a.enumFrom 0).filterMap (fun p => warningOf p.1 p.2)) := by
  rw [parseRunList_of_array doc a _ h, parseLoop_eq, refRoles_eq_loop, refRecipes_eq_loop]
  simp

/-- C9, as the claim states it, fails on `{"run_list": ["role[a\u0000b]"]}`: the
item is built from the C string `GetString()` points to, so it stops at the NUL
and is `"role[a"`; the role gets the empty name, where the reference definition
over `trim(a[i])` gives the name `a\u0000b`. -/
theorem parseRunList_ne_specRoles :
    parseRunList (runListDoc nulArray) ChefRunList.empty = .ok (⟨[⟨[], 0⟩], []⟩, []) ∧
    specRoles nulArray = [⟨['a', Char.ofNat 0, 'b'], 0⟩] ∧
    ¬ ∃ log, parseRunList (runListDoc nulArray) ChefRunList.empty =
      .ok (⟨specRoles nulArray, specRecipes nulArray⟩, log) := by
  have h1 : parseRunList (runListDoc nulArray) ChefRunList.empty =
      .ok (⟨[⟨[], 0⟩], []⟩, []) := rfl
  have h2 : specRoles nulArray = [⟨['a', Char.ofNat 0, 'b'], 0⟩] := rfl
  refine ⟨h1, h2, ?_⟩
  rintro ⟨log, h⟩
  rw [h1, h2] at h
  simp at h

/-- C9, amended: `parseRunList` equals its reference definition once every
string element is read as the C string it holds. For every document whose
`"run_list"` is an array `a`, `parseRunList` started on an empty run list
completes with roles `refRoles a` and recipes `refRecipes a`; and when no string
element of `a` holds a NUL character these are `specRoles a` and
`specRecipes a`, the lists of the claim. -/
theorem parseRunList_eq_reference (doc : Value) (a : List Value)
    (h : doc.FindMember kRunList = .ok (some (.array a))) :
    (∃ log, parseRunList doc ChefRunList.empty = .ok (⟨refRoles a, refRecipes a⟩, log)) ∧
    ((∀ s, Value.string s ∈ a → Char.ofNat 0 ∉ s) →
      ∃ log, parseRunList doc ChefRunList.empty =
        .ok (⟨specRoles a, specRecipes a⟩, log)) := by
  have key : ∃ log, parseRunList doc ChefRunList.empty =
      .ok (⟨refRoles a, refRecipes a⟩, log) := by
    refine ⟨(a.enumFrom 0).filterMap (fun p => warningOf p.1 p.2), ?_⟩
    rw [parseRunList_array_closed doc a _ h]
    simp [ChefRunList.empty]
  refine ⟨key, fun hnul => ?_⟩
  rw [← refRoles_eq_spec a hnul, ← refRecipes_eq_spec a hnul]
  exact key

/-- C9 amended, on the five-element document of the test and on the document
with a NUL. -/
theorem parseRunList_eq_reference_witness :
    (∃ log, parseRunList (runListDoc testArray5) ChefRunList.empty =
      .ok (⟨specRoles testArray5, specRecipes testArray5⟩, log)) ∧
    (∃ log, parseRunList (runListDoc nulArray) ChefRunList.empty =
      .ok (⟨refRoles nulArray, refRecipes nulArray⟩, log)) :=
  ⟨(parseRunList_eq_reference (runListDoc testArray5) testArray5 rfl).2 (by
      intro s hs
      simp only [testArray5, List.mem_cons, Value.string.injEq, List.mem_singleton] at hs
      rcases hs with rfl | rfl | rfl | rfl | rfl | hs
      · decide
      · decide
      · decide
      · decide
      · decide
      · cases hs),
   (parseRunList_eq_reference (runListDoc nulArray) nulArray rfl).1⟩

/-! ## The three-element test, generalised -/

theorem dropWhile_eq_self_of_head (p : Char → Bool) (l : CppString)
    (h : ∀ x ∈ l.head?, p x = false) : l.dropWhile p = l := by
  cases l with
  | nil => rfl
  | cons c t =>
    have hc : p c = false := h c (by simp)
    simp [List.dropWhile_cons, hc]

/-- Trimming leaves a string alone when it neither starts nor ends with
whitespace. -/
theorem trim_eq_self (s : CppString) (hhead : ∀ x ∈ s.head?, isSpace x = false)
    (hlast : ∀ x ∈ s.getLast?, isSpace x = false) : trim s = s := by
  have hr : trim_right_if isSpace s = s := by
    rw [trim_right_if, dropWhile_eq_self_of_head isSpace s.reverse
      (by rw [List.head?_reverse]; exact hlast), List.reverse_reverse]
  rw [trim, hr, trim_left_if, dropWhile_eq_self_of_head isSpace s hhead]

theorem text_of_role_item (a : CppString) (hnul : Char.ofNat 0 ∉ a) :
    trim (fromCStr (kChefRoleSearchTerm ++ a ++ [']'])) = kChefRoleSearchTerm ++ a ++ [']'] := by
  rw [fromCStr_eq_self _ (by simp [kChefRoleSearchTerm, hnul])]
  apply trim_eq_self
  · simp [kChefRoleSearchTerm]; decide
  · simp [List.getLast?_append]; decide

theorem text_of_recipe_item (b : CppString) (hnul : Char.ofNat 0 ∉ b) :
    trim (fromCStr (kChefRecipeSearchTerm ++ b ++ [']'])) =
      kChefRecipeSearchTerm ++ b ++ [']'] := by
  rw [fromCStr_eq_self _ (by simp [kChefRecipeSearchTerm, hnul])]
  apply trim_eq_self
  · simp [kChefRecipeSearchTerm]; decide
  · simp [List.getLast?_append]; decide

theorem roleOf_role_item (i : Nat) (a : CppString) (hnul : Char.ofNat 0 ∉ a)
    (hlen : a.length + 6 < sizeModulus) :
    roleOf i (.string (kChefRoleSearchTerm ++ a ++ [']'])) = some ⟨a, i⟩ ∧
    recipeOf i (.string (kChefRoleSearchTerm ++ a ++ [']'])) = none := by
  have hpre : kChefRoleSearchTerm <+: kChefRoleSearchTerm ++ a ++ [']'] := by
    rw [List.append_assoc]; exact List.prefix_append _ _
  have hrole : isRole (kChefRoleSearchTerm ++ a ++ [']']) [] = .ok (true, a) := by
    rw [isRole_of_role_start _ [] (by simp [kChefRoleSearchTerm]; omega) hpre]
    simp [kChefRoleSearchTerm]
  simp only [roleOf, recipeOf, text_of_role_item a hnul, if_pos hpre, roleName, hrole,
    and_self]

theorem recipeOf_recipe_item (i : Nat) (b : CppString) (hnul : Char.ofNat 0 ∉ b)
    (hlen : b.length + 8 < sizeModulus) :
    roleOf i (.string (kChefRecipeSearchTerm ++ b ++ [']'])) = none ∧
    recipeOf i (.string (kChefRecipeSearchTerm ++ b ++ [']'])) = some ⟨b, i⟩ := by
  have hpre : kChefRecipeSearchTerm <+: kChefRecipeSearchTerm ++ b ++ [']'] := by
    rw [List.append_assoc]; exact List.prefix_append _ _
  have hnot := not_role_of_recipe _ hpre
  have hrec : isRecipe (kChefRecipeSearchTerm ++ b ++ [']']) [] = .ok (true, b) := by
    rw [isRecipe_of_recipe_start _ [] (by simp [kChefRecipeSearchTerm]; omega) hpre]
    simp [kChefRecipeSearchTerm]
  simp only [roleOf, recipeOf, text_of_recipe_item b hnul, if_neg hnot, recipeName, hrec,
    and_self]

theorem recipeOf_bare_item (i : Nat) (c : CppString) (hnul : Char.ofNat 0 ∉ c)
    (hhead : ∀ x ∈ c.head?, isSpace x = false) (hlast : ∀ x ∈ c.getLast?, isSpace x = false)
    (hrole : ¬ kChefRoleSearchTerm <+: c) (hrec : ¬ kChefRecipeSearchTerm <+: c) :
    roleOf i (.string c) = none ∧ recipeOf i (.string c) = some ⟨c, i⟩ := by
  have htext : trim (fromCStr c) = c := by
    rw [fromCStr_eq_self c hnul, trim_eq_self c hhead hlast]
  simp only [roleOf, recipeOf, htext, if_neg hrole, recipeName,
    isRecipe_of_bare c [] hrec hrole, and_self]

/-- C10, as the claim states it, fails for the string `a` that is one NUL
character: on `{"run_list": ["role[\u0000]"]}` the item stops at the NUL, it is
`"role["`, and the role gets the empty name instead of `a`. -/
theorem three_element_test_fails_on_nul :
    parseRunList (runListDoc [.string (kChefRoleSearchTerm ++ [Char.ofNat 0] ++ [']'])])
        ChefRunList.empty = .ok (⟨[⟨[], 0⟩], []⟩, []) ∧
    ¬ ∃ log, parseRunList
        (runListDoc [.string (kChefRoleSearchTerm ++ [Char.ofNat 0] ++ [']'])])
        ChefRunList.empty = .ok (⟨[⟨[Char.ofNat 0], 0⟩], []⟩, log) := by
  have h1 : parseRunList
      (runListDoc [.string (kChefRoleSearchTerm ++ [Char.ofNat 0] ++ [']'])])
      ChefRunList.empty = .ok (⟨[⟨[], 0⟩], []⟩, []) := rfl
  refine ⟨h1, ?_⟩
  rintro ⟨log, h⟩
  rw [h1] at h
  simp at h

/-- C10, amended: for all strings `a`, `b` and `c` that hold no NUL character,
`c` having no leading or trailing whitespace and starting with neither
`"role["` nor `"recipe["`, `parseRunList` on
`{"run_list": ["role[" ++ a ++ "]", "recipe[" ++ b ++ "]", c]}` yields
roles `[{a, 0}]` and recipes `[{b, 1}, {c, 2}]`, and on
`{"run_list": ["role[" ++ a ++ "]"]}` it yields roles `[{a, 0}]` and no recipe.
(The items are `std::string`s, so shorter than `2 ^ 64`.) -/
theorem three_element_test (a b c : CppString)
    (ha : Char.ofNat 0 ∉ a) (hb : Char.ofNat 0 ∉ b) (hc : Char.ofNat 0 ∉ c)
    (hlena : a.length + 6 < sizeModulus) (hlenb : b.length + 8 < sizeModulus)
    (hhead : ∀ x ∈ c.head?, isSpace x = false) (hlast : ∀ x ∈ c.getLast?, isSpace x = false)
    (hrole : ¬ kChefRoleSearchTerm <+: c) (hrec : ¬ kChefRecipeSearchTerm <+: c) :
    parseRunList (runListDoc [.string (kChefRoleSearchTerm ++ a ++ [']']),
        .string (kChefRecipeSearchTerm ++ b ++ [']']), .string c]) ChefRunList.empty =
      .ok (⟨[⟨a, 0⟩], [⟨b, 1⟩, ⟨c, 2⟩]⟩, []) ∧
    parseRunList (runListDoc [.string (kChefRoleSearchTerm ++ a ++ [']'])])
        ChefRunList.empty = .ok (⟨[⟨a, 0⟩], []⟩, []) := by
  have h0 := roleOf_role_item 0 a ha hlena
  have h1 := recipeOf_recipe_item 1 b hb hlenb
  have h2 := recipeOf_bare_item 2 c hc hhead hlast hrole hrec
  simp only [List.append_assoc] at h0 h1
  constructor
  · rw [parseRunList_of_array (runListDoc _) _ _ rfl, parseLoop_eq]
    simp [List.enumFrom_cons, List.filterMap_cons, h0, h1, h2, warningOf, Value.IsString,
      ChefRunList.empty]
  · rw [parseRunList_of_array (runListDoc _) _ _ rfl, parseLoop_eq]
    simp [List.enumFrom_cons, List.filterMap_cons, h0, warningOf, Value.IsString,
      ChefRunList.empty]

/-- C10 amended, on the documents of the test: `a = "foo"`, `b = "bar"`,
`c = "Foo::Bar"`. -/
theorem three_element_test_witness :
    parseRunList (runListDoc [.string "role[foo]".toList, .string "recipe[bar]".toList,
        .string "Foo::Bar".toList]) ChefRunList.empty =
      .ok (⟨[⟨"foo".toList, 0⟩], [⟨"bar".toList, 1⟩, ⟨"Foo::Bar".toList, 2⟩]⟩, []) ∧
    parseRunList (runListDoc [.string "role[foo]".toList]) ChefRunList.empty =
      .ok (⟨[⟨"foo".toList, 0⟩], []⟩, []) :=
  three_element_test "foo".toList "bar".toList "Foo::Bar".toList (by decide) (by decide)
    (by decide) (by decide) (by decide) (by decide) (by decide) (by decide) (by decide)

/-! ## Whitespace around an element -/

theorem isSpace_iff_mem (c : Char) :
    isSpace c = true ↔ c ∈ [' ', '\t', '\n', '\r', Char.ofNat 11, Char.ofNat 12] := by
  simp only [isSpace, Bool.or_eq_true, decide_eq_true_eq, List.mem_cons, List.mem_singleton,
    List.mem_nil_iff]
  tauto

theorem isSpace_ne_nul (c : Char) (h : isSpace c = true) : (c != Char.ofNat 0) = true := by
  rw [isSpace_iff_mem] at h
  simp only [List.mem_cons, List.mem_singleton, List.mem_nil_iff, or_false] at h
  rcases h with h | h | h | h | h | h <;> subst h <;> decide

theorem fromCStr_spaces (w : CppString) (hw : ∀ c ∈ w, isSpace c = true) : fromCStr w = w := by
  rw [fromCStr, List.takeWhile_eq_self_iff]
  intro c hc
  exact isSpace_ne_nul c (hw c hc)

theorem fromCStr_spaces_append (w t : CppString) (hw : ∀ c ∈ w, isSpace c = true) :
    fromCStr (w ++ t) = w ++ fromCStr t := by
  unfold fromCStr
  exact List.takeWhile_append_of_pos (fun c hc => isSpace_ne_nul c (hw c hc))

/-- Whitespace after a buffer adds at most whitespace to the C string read from
it (nothing when the buffer holds a NUL). -/
theorem fromCStr_append_spaces (t w : CppString) (hw : ∀ c ∈ w, isSpace c = true) :
    ∃ w', (∀ c ∈ w', isSpace c = true) ∧ fromCStr (t ++ w) = fromCStr t ++ w' := by
  induction t with
  | nil => exact ⟨w, hw, by rw [List.nil_append, fromCStr_spaces w hw]; rfl⟩
  | cons c t ih =>
    obtain ⟨w', hw', h⟩ := ih
    by_cases hc : c = Char.ofNat 0
    · exact ⟨[], by simp, by simp [fromCStr, List.takeWhile_cons, hc]⟩
    · refine ⟨w', hw', ?_⟩
      have hc' : (c != Char.ofNat 0) = true := by simpa using hc
      simp only [fromCStr, List.cons_append, List.takeWhile_cons, hc', if_true] at h ⊢
      rw [h]

theorem trim_append_spaces (t w : CppString) (hw : ∀ c ∈ w, isSpace c = true) :
    trim (t ++ w) = trim t := by
  unfold trim trim_right_if
  rw [List.reverse_append, List.dropWhile_append_of_pos (by simpa using hw)]

theorem trim_spaces_append (w t : CppString) (hw : ∀ c ∈ w, isSpace c = true) :
    trim (w ++ t) = trim t := by
  unfold trim trim_right_if trim_left_if
  rw [List.reverse_append, List.dropWhile_append]
  split
  · rename_i h
    have h1 : List.dropWhile isSpace t.reverse = [] := List.isEmpty_iff.1 h
    have h2 : List.dropWhile isSpace w.reverse = [] := by
      rw [List.dropWhile_eq_nil_iff]
      simpa using hw
    rw [h1, h2]
  · rw [List.reverse_append, List.reverse_reverse, List.dropWhile_append_of_pos hw]

/-- The item text of a string element does not depend on the whitespace around
the element. -/
theorem text_of_padded (s ws ws' : CppString) (hws : ∀ c ∈ ws, isSpace c = true)
    (hws' : ∀ c ∈ ws', isSpace c = true) :
    trim (fromCStr (ws ++ s ++ ws')) = trim (fromCStr s) := by
  obtain ⟨w, hw, h⟩ := fromCStr_append_spaces s ws' hws'
  rw [List.append_assoc, fromCStr_spaces_append ws _ hws, h, trim_spaces_append ws _ hws,
    trim_append_spaces _ w hw]

theorem parseElem_padded (i : Nat) (s ws ws' : CppString) (runlist : ChefRunList)
    (log : List LogLine) (hws : ∀ c ∈ ws, isSpace c = true)
    (hws' : ∀ c ∈ ws', isSpace c = true) :
    parseElem i (.string (ws ++ s ++ ws')) runlist log =
      parseElem i (.string s) runlist log := by
  rw [parseElem_string, parseElem_string, text_of_padded s ws ws' hws hws']

/-- The loop does not tell apart two arrays that differ in one element on which
the loop body does the same. -/
theorem parseLoop_congr_elem (v v' : Value) (post : List Value)
    (h : ∀ i runlist log, parseElem i v' runlist log = parseElem i v runlist log)
    (pre : List Value) (i : Nat) (runlist : ChefRunList) (log : List LogLine) :
    parseLoop (pre ++ v' :: post) i runlist log = parseLoop (pre ++ v :: post) i runlist log := by
  induction pre generalizing i runlist log with
  | nil => simp only [List.nil_append, parseLoop, h]
  | cons u pre ih =>
    simp only [List.cons_append, parseLoop]
    cases parseElem i u runlist log with
    | error e => rfl
    | ok r => exact ih _ _ _

/-- C11: whitespace invariance. For every document whose `"run_list"` is an
array, replacing a string element `s` by `ws ++ s ++ ws'`, where `ws` and `ws'`
are made of the whitespace characters space, tab, newline, carriage return,
vertical tab and form feed, leaves the result of `parseRunList` (which exists)
unchanged; whitespace inside the brackets is not removed: `"role[ foo ]"` yields
the name `" foo "`. -/
theorem whitespace_invariance (doc doc' : Value) (pre post : List Value)
    (s ws ws' : CppString) (runlist : ChefRunList)
    (hws : ∀ c ∈ ws, c ∈ [' ', '\t', '\n', '\r', Char.ofNat 11, Char.ofNat 12])
    (hws' : ∀ c ∈ ws', c ∈ [' ', '\t', '\n', '\r', Char.ofNat 11, Char.ofNat 12])
    (hdoc : doc.FindMember kRunList = .ok (some (.array (pre ++ .string s :: post))))
    (hdoc' : doc'.FindMember kRunList =
      .ok (some (.array (pre ++ .string (ws ++ s ++ ws') :: post)))) :
    parseRunList doc' runlist = parseRunList doc runlist ∧
    (∃ r log, parseRunList doc runlist = .ok (r, log)) ∧
    parseRunList (runListDoc [.string "role[ foo ]".toList]) ChefRunList.empty =
      .ok (⟨[⟨" foo ".toList, 0⟩], []⟩, []) := by
  have h1 : ∀ c ∈ ws, isSpace c = true := fun c hc => (isSpace_iff_mem c).2 (hws c hc)
  have h2 : ∀ c ∈ ws', isSpace c = true := fun c hc => (isSpace_iff_mem c).2 (hws' c hc)
  refine ⟨?_, ⟨_, _, parseRunList_array_closed doc _ runlist hdoc⟩, rfl⟩
  rw [parseRunList_of_array doc' _ runlist hdoc', parseRunList_of_array doc _ runlist hdoc]
  exact parseLoop_congr_elem _ _ post
    (fun i rl log => parseElem_padded i s ws ws' rl log h1 h2) pre 0 runlist []

/-- C11 on `[1, " \trole[foo]\n", "x"]` against `[1, "role[foo]", "x"]`. -/
theorem whitespace_invariance_witness :
    parseRunList (runListDoc [.number 1, .string " \trole[foo]\n".toList, .string "x".toList])
        ChefRunList.empty =
      parseRunList (runListDoc [.number 1, .string "role[foo]".toList, .string "x".toList])
        ChefRunList.empty :=
  (whitespace_invariance
    (runListDoc [.number 1, .string "role[foo]".toList, .string "x".toList])
    (runListDoc [.number 1, .string " \trole[foo]\n".toList, .string "x".toList])
    [.number 1] [.string "x".toList] "role[foo]".toList " \t".toList "\n".toList
    ChefRunList.empty (by decide) (by decide) rfl rfl).1

/-! ## Documents that are not objects -/

theorem parseRunList_not_object (doc : Value) (runlist : ChefRunList)
    (h : doc.IsObject = false) : parseRunList doc runlist = .error .assertion := by
  cases doc <;> first
    | rfl
    | simp [Value.IsObject] at h

/-- C13, evaluated on the code: `parseRunList` ends in a failed assertion
exactly on the documents that are not objects. The lookup
`doc.HasMember("run_list")` asserts `IsObject()`, and nothing checks the type of
the document before it; so a null document (left by malformed text), the number
`42`, an array or a string does not yield a run list. -/
theorem parseRunList_asserts_iff_not_object (doc : Value) (runlist : ChefRunList) :
    (parseRunList doc runlist = .error .assertion ↔ doc.IsObject = false) ∧
    parseRunList Value.null runlist = .error .assertion ∧
    parseRunList (Value.number 42) runlist = .error .assertion ∧
    parseRunList (Value.array []) runlist = .error .assertion ∧
    parseRunList (Value.string []) runlist = .error .assertion := by
  refine ⟨⟨fun h => ?_, parseRunList_not_object doc runlist⟩, rfl, rfl, rfl, rfl⟩
  cases doc with
  | object members =>
    obtain ⟨r, log, hr⟩ := parseRunList_object_total members runlist
    rw [hr] at h
    cases h
  | _ => rfl

/-- C12, evaluated on the code: when the first-boot file is missing or cannot
be read, `getFirstBootJson` returns the null document and `genChefRunList` ends
in the failed assertion of `doc.HasMember("run_list")` instead of returning an
empty table. -/
theorem genChefRunList_without_file (parse : CppString → Option Value) :
    getFirstBootJson (fun _ => FileState.missing) parse kChefFirstBootJSON = Value.null ∧
    getFirstBootJson (fun _ => FileState.unreadable) parse kChefFirstBootJSON = Value.null ∧
    genChefRunList (fun _ => FileState.missing) parse = .error .assertion ∧
    genChefRunList (fun _ => FileState.unreadable) parse = .error .assertion :=
  ⟨rfl, rfl, rfl, rfl⟩

/-! ## The table -/

theorem pushRows_eq (results : QueryData) (items : List ChefRunListItem) :
    pushRows results items = results ++ items.map rowOfItem := by
  induction items generalizing results with
  | nil => simp [pushRows]
  | cons item items ih =>
    have h := ih (results ++ [rowOfItem item])
    simp only [pushRows, List.foldl_cons, List.map_cons] at h ⊢
    rw [h, List.append_assoc]
    rfl

theorem rowOfItem_eq (item : ChefRunListItem) :
    rowOfItem item = [(kSeqNo, INTEGER item.seqNum), (kRole, item.name)] := by
  have hne : ¬ kSeqNo = kRole := by decide
  simp [rowOfItem, Row.set, hne]

/-- C14: for a parsed run list `rl` the table has one row for each element of
`rl.roles`, in order, and then one row for each element of `rl.recipes`, in
order; the row of an item has exactly the columns `seq_no`, holding the decimal
text of its `seqNum`, and `role`, holding its name. So there are
`roles.size + recipes.size` rows, and they need not be ordered by `seq_no`: for
the first-boot document `{"run_list": ["recipe[a]", "role[b]"]}` the row with
`seq_no` 1 comes before the row with `seq_no` 0. -/
theorem rows_of_run_list (rl : ChefRunList) (fs : CppString → FileState)
    (parse : CppString → Option Value) :
    rowsOfRunList rl = rl.roles.map rowOfItem ++ rl.recipes.map rowOfItem ∧
    (rowsOfRunList rl).length = rl.roles.length + rl.recipes.length ∧
    (∀ item : ChefRunListItem,
      rowOfItem item = [(kSeqNo, INTEGER item.seqNum), (kRole, item.name)] ∧
      (rowOfItem item).get kSeqNo = some (INTEGER item.seqNum) ∧
      (rowOfItem item).get kRole = some item.name ∧
      INTEGER item.seqNum = (Nat.repr item.seqNum).toList) ∧
    (∀ log, parseRunList (getFirstBootJson fs parse kChefFirstBootJSON) ChefRunList.empty =
        .ok (rl, log) → genChefRunList fs parse = .ok (rowsOfRunList rl, log)) ∧
    genChefRunList (fun _ => FileState.readable []) (fun _ => some (runListDoc recipeThenRole)) =
      .ok ([[(kSeqNo, ['1']), (kRole, ['b'])], [(kSeqNo, ['0']), (kRole, ['a'])]], []) := by
  have hrows : rowsOfRunList rl = rl.roles.map rowOfItem ++ rl.recipes.map rowOfItem := by
    simp [rowsOfRunList, pushRows_eq]
  refine ⟨hrows, by simp [hrows], fun item => ?_, fun log h => ?_, rfl⟩
  · have hne : ¬ kSeqNo = kRole := by decide
    refine ⟨rowOfItem_eq item, ?_, ?_, ?_⟩
    · simp [rowOfItem_eq, Row.get]
    · simp [rowOfItem_eq, Row.get, hne]
    · rfl
  · simp [genChefRunList, h]

/-! ## The warnings -/

theorem filterMap_ite_eq_map_filter {α β : Type} (q : α → Bool) (g : α → β) (l : List α) :
    l.filterMap (fun x => if q x = true then some (g x) else none) = (l.filter q).map g := by
  induction l with
  | nil => rfl
  | cons x l ih => by_cases hx : q x = true <;> simp [List.filterMap_cons, List.filter_cons, hx, ih]

/-- The warnings of the loop are one per element that is not a string, with
its index, in index order. -/
theorem warnings_eq (a : List Value) :
    (a.enumFrom 0).filterMap (fun p => warningOf p.1 p.2) =
      (nonStringIndices a).map LogLine.notStringType := by
  rw [filterMap_enumFrom_eq_range warningOf a 0, nonStringIndices,
    ← filterMap_ite_eq_map_filter]
  congr 1
  funext j
  have aux : ∀ x : Option Value,
      (match x with
        | some v => warningOf (0 + j) v
        | none => none) =
      if (match x with
          | some v => !v.IsString
          | none => false) = true then some (LogLine.notStringType j) else none := by
    intro x
    cases x with
    | none => rfl
    | some v => by_cases hv : v.IsString = true <;> simp [warningOf, hv]
  exact aux a[j]?

/-- C15: with the log as the list of warnings emitted, `parseRunList` emits no
warning when the document has no `"run_list"` member, exactly one when the
member is there but is not an array, and, when it is an array `a`, exactly one
warning for each element that is not a string, in index order and carrying the
index of the element; string elements cause none. -/
theorem warnings_logged (doc : Value) (runlist : ChefRunList) :
    (doc.FindMember kRunList = .ok none → ∃ r, parseRunList doc runlist = .ok (r, [])) ∧
    (∀ v, doc.FindMember kRunList = .ok (some v) → v.IsArray = false →
      ∃ r, parseRunList doc runlist = .ok (r, [LogLine.notArrayType])) ∧
    (∀ a, doc.FindMember kRunList = .ok (some (.array a)) →
      ∃ r, parseRunList doc runlist =
        .ok (r, (nonStringIndices a).map LogLine.notStringType)) := by
  refine ⟨fun h => ⟨_, parseRunList_of_missing doc runlist h⟩,
    fun v h hv => ⟨_, parseRunList_of_not_array doc v runlist h hv⟩, fun a h =>
      ⟨⟨runlist.roles ++ refRoles a, runlist.recipes ++ refRecipes a⟩, ?_⟩⟩
  rw [parseRunList_array_closed doc a runlist h, warnings_eq]

/-- C15 on `{"run_list": ["role[a]", 1, "b", null]}`: warnings for the indices
1 and 3, in that order. -/
theorem warnings_logged_witness :
    ∃ r, parseRunList
        (runListDoc [.string "role[a]".toList, .number 1, .string "b".toList, .null])
        ChefRunList.empty =
      .ok (r, [LogLine.notStringType 1, LogLine.notStringType 3]) :=
  (warnings_logged
    (runListDoc [.string "role[a]".toList, .number 1, .string "b".toList, .null])
    ChefRunList.empty).2.2 _ rfl

/-! ## The range of the substring, and the output parameters -/

/-- C16: the substring extraction of `isRole` and `isRecipe` never goes out of
range. Both functions return on every item; when the search term is found at
position 0 the start offset (5 or 7) is at most the length of the item, so
`substr` does not throw; and on the shortest accepted items `"role["` and
`"recipe["` the count `length - prefix length - 1` wraps around to the largest
`size_t` value (`npos`, which is `2 ^ 64 - 1`), is clamped, and the extracted
name is the empty string. -/
theorem substr_never_out_of_range (item name : CppString) :
    (∃ r, isRole item name = .ok r) ∧ (∃ r, isRecipe item name = .ok r) ∧
    (find item kChefRoleSearchTerm = 0 →
      kChefRoleSearchTerm.length ≤ item.length ∧
      ∃ n, substr item kChefRoleSearchTerm.length
        (sizeSub (sizeSub item.length kChefRoleSearchTerm.length) 1) = .ok n) ∧
    (find item kChefRecipeSearchTerm = 0 →
      kChefRecipeSearchTerm.length ≤ item.length ∧
      ∃ n, substr item kChefRecipeSearchTerm.length
        (sizeSub (sizeSub item.length kChefRecipeSearchTerm.length) 1) = .ok n) ∧
    sizeSub (sizeSub kChefRoleSearchTerm.length kChefRoleSearchTerm.length) 1 = npos ∧
    sizeSub (sizeSub kChefRecipeSearchTerm.length kChefRecipeSearchTerm.length) 1 = npos ∧
    npos = 2 ^ 64 - 1 ∧
    substr kChefRoleSearchTerm kChefRoleSearchTerm.length npos = .ok [] ∧
    substr kChefRecipeSearchTerm kChefRecipeSearchTerm.length npos = .ok [] ∧
    isRole kChefRoleSearchTerm name = .ok (true, []) ∧
    isRecipe kChefRecipeSearchTerm name = .ok (true, []) := by
  refine ⟨?_, ?_, ?_, ?_, by decide, by decide, rfl, rfl, rfl, rfl, rfl⟩
  · obtain ⟨n, hn⟩ := isRole_total item name
    exact ⟨_, hn⟩
  · obtain ⟨n, hn⟩ := isRecipe_total item name
    exact ⟨_, hn⟩
  · intro h
    have hle := ((find_eq_zero_iff _ _).1 h).length_le
    have hnot : ¬ kChefRoleSearchTerm.length > item.length := by omega
    exact ⟨hle, _, by simp only [substr, hnot, if_false]; rfl⟩
  · intro h
    have hle := ((find_eq_zero_iff _ _).1 h).length_le
    have hnot : ¬ kChefRecipeSearchTerm.length > item.length := by omega
    exact ⟨hle, _, by simp only [substr, hnot, if_false]; rfl⟩

/-- C19: when `isRole(item, name)` or `isRecipe(item, name)` returns false the
output parameter `name` has the value it had before the call; it is written
only on a true result. Each function does return false on some items: `isRole`
on those that do not start with `"role["`, `isRecipe` on those that do. -/
theorem name_unchanged_on_false (item name : CppString) :
    (∀ n, isRole item name = .ok (false, n) → n = name) ∧
    (∀ n, isRecipe item name = .ok (false, n) → n = name) ∧
    (¬ kChefRoleSearchTerm <+: item → isRole item name = .ok (false, name)) ∧
    (kChefRoleSearchTerm <+: item → isRecipe item name = .ok (false, name)) := by
  refine ⟨fun n h => ?_, fun n h => ?_, isRole_of_other_start item name,
    isRecipe_of_role_start item name⟩
  · by_cases hpre : kChefRoleSearchTerm <+: item
    · obtain ⟨m, hm⟩ := isRole_total item name
      rw [hm] at h
      simp [hpre] at h
    · rw [isRole_of_other_start item name hpre] at h
      simp at h
      exact h.symm
  · by_cases hpre : kChefRoleSearchTerm <+: item
    · rw [isRecipe_of_role_start item name hpre] at h
      simp at h
      exact h.symm
    · obtain ⟨m, hm⟩ := isRecipe_total item name
      rw [hm] at h
      simp [hpre] at h

/-- C19 on the items of the negative tests, called with the name `"x"`. -/
theorem name_unchanged_on_false_witness :
    isRole "recipe[foobar]".toList ['x'] = .ok (false, ['x']) ∧
    isRecipe "role[foobar]".toList ['x'] = .ok (false, ['x']) :=
  ⟨(name_unchanged_on_false "recipe[foobar]".toList ['x']).2.2.1 (by decide),
   (name_unchanged_on_false "role[foobar]".toList ['x']).2.2.2 (by decide)⟩

/-! ## Blank elements -/

theorem text_of_blank (ws : CppString) (hws : ∀ c ∈ ws, isSpace c = true) :
    trim (fromCStr ws) = [] := by
  rw [fromCStr_spaces ws hws]
  have h := trim_append_spaces [] ws hws
  rw [List.nil_append] at h
  rw [h]
  rfl

theorem items_of_blank (i : Nat) (ws : CppString) (hws : ∀ c ∈ ws, isSpace c = true) :
    roleOf i (.string ws) = none ∧ recipeOf i (.string ws) = some ⟨[], i⟩ := by
  have hnot : ¬ kChefRoleSearchTerm <+: ([] : CppString) := by decide
  have hname : recipeName [] = [] := rfl
  simp only [roleOf, recipeOf, text_of_blank ws hws, if_neg hnot, hname, and_self]

/-- C17: a string element of `"run_list"` that is empty or made of whitespace
only is not dropped. For such an element at index `i` the loop body appends the
item `{name = "", seqNum = i}` to the recipes and nothing to the roles; so the
result of `parseRunList` holds that item among its recipes and no role with the
sequence number `i`. -/
theorem blank_element_is_recipe (doc : Value) (a : List Value) (i : Nat) (ws : CppString)
    (hdoc : doc.FindMember kRunList = .ok (some (.array a)))
    (hi : a[i]? = some (.string ws))
    (hws : ∀ c ∈ ws, c ∈ [' ', '\t', '\n', '\r', Char.ofNat 11, Char.ofNat 12]) :
    (∀ runlist log, parseElem i (.string ws) runlist log =
      .ok (⟨runlist.roles, runlist.recipes ++ [⟨[], i⟩]⟩, log)) ∧
    ∃ r log, parseRunList doc ChefRunList.empty = .ok (r, log) ∧
      (⟨[], i⟩ : ChefRunListItem) ∈ r.recipes ∧ ∀ x ∈ r.roles, x.seqNum ≠ i := by
  have hsp : ∀ c ∈ ws, isSpace c = true := fun c hc => (isSpace_iff_mem c).2 (hws c hc)
  have hitems := items_of_blank i ws hsp
  have hmem : (i, Value.string ws) ∈ a.enumFrom 0 := by
    rw [List.mk_mem_enumFrom_iff_le_and_getElem?_sub]
    exact ⟨Nat.zero_le _, by simpa using hi⟩
  constructor
  · intro runlist log
    rw [parseElem_eq, hitems.1, hitems.2]
    simp [warningOf, Value.IsString]
  · refine ⟨_, _, (parseRunList_of_array doc a _ hdoc).trans (parseLoop_eq a 0 _ []), ?_, ?_⟩
    · simp only [ChefRunList.empty, List.nil_append, List.mem_filterMap]
      exact ⟨(i, Value.string ws), hmem, hitems.2⟩
    · intro x hx
      simp only [ChefRunList.empty, List.nil_append, List.mem_filterMap] at hx
      obtain ⟨p, hp, hpx⟩ := hx
      intro hxi
      have hseq := seqNum_roleOf p.1 p.2 x hpx
      have hp1 : p.1 = i := by rw [← hseq, hxi]
      have hp' : (p.1, p.2) ∈ a.enumFrom 0 := hp
      rw [List.mk_mem_enumFrom_iff_le_and_getElem?_sub, hp1] at hp'
      have hv : p.2 = Value.string ws := by
        have h2 := hp'.2
        simp only [Nat.sub_zero] at h2
        rw [hi] at h2
        exact (Option.some.inj h2).symm
      rw [hp1, hv, hitems.1] at hpx
      cases hpx

/-- C17 on `{"run_list": ["role[a]", " \t", ""]}`: the blank elements at the
indices 1 and 2 give recipes with the empty name. -/
theorem blank_element_is_recipe_witness :
    (∃ r log, parseRunList
        (runListDoc [.string "role[a]".toList, .string " \t".toList, .string []])
        ChefRunList.empty = .ok (r, log) ∧
      (⟨[], 1⟩ : ChefRunListItem) ∈ r.recipes ∧ ∀ x ∈ r.roles, x.seqNum ≠ 1) ∧
    parseRunList (runListDoc [.string "role[a]".toList, .string " \t".toList, .string []])
        ChefRunList.empty = .ok (⟨[⟨['a'], 0⟩], [⟨[], 1⟩, ⟨[], 2⟩]⟩, []) :=
  ⟨(blank_element_is_recipe
      (runListDoc [.string "role[a]".toList, .string " \t".toList, .string []])
      [.string "role[a]".toList, .string " \t".toList, .string []] 1 " \t".toList
      rfl rfl (by decide)).2, rfl⟩

/-! ## The output parameter of `parseRunList` -/

/-- C18: `parseRunList` only appends to its output parameter. On every object
document it completes from any initial run list `r0`; whenever it completes,
the roles and the recipes of the result are those of `r0` followed by exactly
what `parseRunList` produces from an empty run list (and the warnings are the
same); and when `"run_list"` is absent or is not an array the result is `r0`. -/
theorem parseRunList_only_appends (doc : Value) (r0 : ChefRunList) :
    (doc.IsObject = true → ∃ r log, parseRunList doc r0 = .ok (r, log)) ∧
    (∀ r log, parseRunList doc r0 = .ok (r, log) →
      ∃ e, parseRunList doc ChefRunList.empty = .ok (e, log) ∧
        r.roles = r0.roles ++ e.roles ∧ r.recipes = r0.recipes ++ e.recipes) ∧
    (∀ r log, parseRunList doc r0 = .ok (r, log) →
      (doc.FindMember kRunList = .ok none ∨
        ∃ v, doc.FindMember kRunList = .ok (some v) ∧ v.IsArray = false) → r = r0) := by
  refine ⟨fun hobj => ?_, fun r log hr => ?_, fun r log hr hno => ?_⟩
  · cases doc <;> simp [Value.IsObject] at hobj
    exact parseRunList_object_total _ _
  · cases doc with
    | object members =>
      obtain ⟨m, hm⟩ := findMember_object members
      cases m with
      | none =>
        rw [parseRunList_of_missing _ _ hm] at hr
        cases hr
        exact ⟨ChefRunList.empty, parseRunList_of_missing _ _ hm, by simp [ChefRunList.empty],
          by simp [ChefRunList.empty]⟩
      | some v =>
        by_cases hv : v.IsArray = true
        · cases v <;> simp [Value.IsArray] at hv
          rename_i a
          rw [parseRunList_array_closed _ a _ hm] at hr
          cases hr
          exact ⟨⟨refRoles a, refRecipes a⟩,
            by rw [parseRunList_array_closed _ a _ hm]; simp [ChefRunList.empty], rfl, rfl⟩
        · have hv' : v.IsArray = false := by simpa using hv
          rw [parseRunList_of_not_array _ v _ hm hv'] at hr
          cases hr
          exact ⟨ChefRunList.empty, parseRunList_of_not_array _ v _ hm hv',
            by simp [ChefRunList.empty], by simp [ChefRunList.empty]⟩
    | _ => simp [parseRunList, Value.HasMember, Value.FindMember] at hr
  · rcases hno with h | ⟨v, h, hv⟩
    · rw [parseRunList_of_missing _ _ h] at hr
      cases hr
      rfl
    · rw [parseRunList_of_not_array _ v _ h hv] at hr
      cases hr
      rfl

/-- C18 on the five-element document of the test, started from a run list that
already holds one role and one recipe. -/
theorem parseRunList_only_appends_witness :
    parseRunList (runListDoc testArray5) ⟨[⟨['x'], 7⟩], [⟨['y'], 9⟩]⟩ =
      .ok (⟨[⟨['x'], 7⟩, ⟨"foo".toList, 0⟩, ⟨"oof".toList, 3⟩],
        [⟨['y'], 9⟩, ⟨"bar".toList, 1⟩, ⟨"Foo::Bar".toList, 2⟩, ⟨"Rab::Oof".toList, 4⟩]⟩, []) ∧
    ∃ e, parseRunList (runListDoc testArray5) ChefRunList.empty = .ok (e, []) ∧
      [⟨['x'], 7⟩, ⟨"foo".toList, 0⟩, ⟨"oof".toList, 3⟩] = [⟨['x'], 7⟩] ++ e.roles ∧
      [⟨['y'], 9⟩, ⟨"bar".toList, 1⟩, ⟨"Foo::Bar".toList, 2⟩, ⟨"Rab::Oof".toList, 4⟩] =
        [⟨['y'], 9⟩] ++ e.recipes :=
  ⟨rfl, (parseRunList_only_appends (runListDoc testArray5) ⟨[⟨['x'], 7⟩], [⟨['y'], 9⟩]⟩).2.1
    ⟨[⟨['x'], 7⟩, ⟨"foo".toList, 0⟩, ⟨"oof".toList, 3⟩],
      [⟨['y'], 9⟩, ⟨"bar".toList, 1⟩, ⟨"Foo::Bar".toList, 2⟩, ⟨"Rab::Oof".toList, 4⟩]⟩ [] rfl⟩

end osquery.tables
